import Mathlib

/-!
# Verification of the `rag-agent` upload pipeline

Shallow embedding of `rag-chat-ui/app/api/upload/route.ts`: the text
chunker `splitTextIntoChunks`, the embedding retry loop
`generateEmbeddingWithRetry`, the batch scheduler
`processChunksInBatches`, the Pinecone upsert loop inside `POST`, and a
pure model of the `POST` handler's outcome dispatch.

Text is modelled as `List Char`; JS `string.slice(a, b)` becomes
`(l.drop a).take (b - a)`; machine numbers are `Nat` (all indices and
sizes in the source are small non-negative integers).  External effects
(the Gemini embedding API, the Pinecone index, `setTimeout`) are
modelled as explicit oracles, and waits are logged as data.
-/

set_option maxRecDepth 8192

namespace Upload

/-- JS `\s` whitespace, restricted to the ASCII range the pipeline sees. -/
def isWS (c : Char) : Bool :=
  c = ' ' || c = '\t' || c = '\n' || c = '\r' || c = '\x0b' || c = '\x0c'

/-- `.replace(/\r\n/g, '\n')`. -/
def replaceCRLF : List Char → List Char
  | [] => []
  | '\r' :: '\n' :: rest => '\n' :: replaceCRLF rest
  | c :: rest => c :: replaceCRLF rest

/-- `.replace(/\r/g, '\n')`. -/
def replaceCR (l : List Char) : List Char :=
  l.map fun c => if c = '\r' then '\n' else c

/-- `.replace(/\s+/g, ' ')`: collapse each maximal whitespace run to one
space (a whitespace character is dropped when another whitespace follows,
and becomes the run's single `' '` when it ends the run). -/
def collapseWS : List Char → List Char
  | [] => []
  | [c] => if isWS c then [' '] else [c]
  | c :: d :: rest =>
    if isWS c then
      if isWS d then collapseWS (d :: rest)
      else ' ' :: collapseWS (d :: rest)
    else c :: collapseWS (d :: rest)

/-- JS `String.prototype.trim()` on our character lists. -/
def trim (l : List Char) : List Char :=
  ((l.dropWhile isWS).reverse.dropWhile isWS).reverse

/-- The normalization pipeline at the top of `splitTextIntoChunks`. -/
def cleanText (text : List Char) : List Char :=
  trim (collapseWS (replaceCR (replaceCRLF text)))

/-- Sentence terminators recognised by the chunker. -/
def isTermChar (c : Char) : Bool :=
  c = '.' || c = '!' || c = '?'

/-- The chunker's test at index `i`: a terminator followed by a space and a
character equal to its own upper-casing (`charAfterNext === charAfterNext.toUpperCase()`). -/
def sentenceCutAt (text : List Char) (i : Nat) : Bool :=
  match text.get? i with
  | none => false
  | some c =>
    isTermChar c &&
      (match text.get? (i+1), text.get? (i+2) with
       | some n, some a => n = ' ' && a = a.toUpper
       | _, _ => false)

/-- `Math.max(startIndex + maxChars - 200, startIndex + maxChars * 0.7)`,
as the least integer index `i` allowed by `i >= searchStart`
(`(7*maxChars+9)/10` is `⌈0.7 * maxChars⌉` over `Nat`; truncated
subtraction mirrors that a negative bound constrains nothing). -/
def searchStartIdx (startIndex maxChars : Nat) : Nat :=
  max ((startIndex + maxChars) - 200) (startIndex + (7 * maxChars + 9) / 10)

/-- Downward scan for a sentence end with `steps` positions still allowed
below the current index `i`. -/
def findTermCutAux (text : List Char) : Nat → Nat → Option Nat
  | i, steps =>
    if sentenceCutAt text i then some (i+1)
    else match steps with
      | 0 => none
      | steps+1 => findTermCutAux text (i-1) steps

/-- The backwards `for` loop looking for a sentence end: scan `i` down to
`lo`, returning `i + 1` for the first hit (zero iterations when `i < lo`,
as in `for (let i = endIndex; i >= searchStart; i--)`). -/
def findTermCut (text : List Char) (lo i : Nat) : Option Nat :=
  if i < lo then none else findTermCutAux text i (i - lo)

/-- Downward scan for a space with `steps` positions still allowed below `i`. -/
def findSpaceCutAux (text : List Char) : Nat → Nat → Option Nat
  | i, steps =>
    if text.get? i = some ' ' then some i
    else match steps with
      | 0 => none
      | steps+1 => findSpaceCutAux text (i-1) steps

/-- The backwards `for` loop looking for a word boundary (a space). -/
def findSpaceCut (text : List Char) (lo i : Nat) : Option Nat :=
  if i < lo then none else findSpaceCutAux text i (i - lo)

/-- The cut-point selection for one non-final window: sentence search first,
then — exactly when the result still equals `endIndex` — the space search. -/
def chunkEndIdx (text : List Char) (startIndex maxChars : Nat) : Nat :=
  let endIndex := startIndex + maxChars
  let lo := searchStartIdx startIndex maxChars
  let c1 := match findTermCut text lo endIndex with
    | some c => c
    | none => endIndex
  if c1 = endIndex then
    match findSpaceCut text lo endIndex with
    | some c => c
    | none => endIndex
  else c1

/-- `nextStart = Math.max(chunkEndIndex - overlap, startIndex + 1)`, then the
safety check `if (nextStart >= chunkEndIndex) startIndex = chunkEndIndex`. -/
def nextStartIdx (startIndex overlap chunkEnd : Nat) : Nat :=
  let ns := max (chunkEnd - overlap) (startIndex + 1)
  if chunkEnd ≤ ns then chunkEnd else ns

/-- The `while (startIndex < cleanedText.length)` loop, with explicit fuel.
For `1 ≤ maxChars` the cursor strictly advances each iteration (proved
below), so fuel `text.length` is never exhausted and the model agrees
with the JS loop. -/
def splitLoop (text : List Char) (maxChars overlap : Nat) :
    Nat → Nat → List (List Char) → List (List Char)
  | 0, _, acc => acc.reverse
  | fuel+1, startIndex, acc =>
    if startIndex < text.length then
      if text.length ≤ startIndex + maxChars then
        let finalChunk := trim (text.drop startIndex)
        (if 50 < finalChunk.length then finalChunk :: acc else acc).reverse
      else
        let chunkEnd := chunkEndIdx text startIndex maxChars
        let chunk := trim ((text.drop startIndex).take (chunkEnd - startIndex))
        let acc' := if 50 < chunk.length then chunk :: acc else acc
        splitLoop text maxChars overlap fuel (nextStartIdx startIndex overlap chunkEnd) acc'
    else acc.reverse

/-- `splitTextIntoChunks(text, maxChars = 1500, overlap = 200)`. -/
def splitTextIntoChunks (text : List Char) (maxChars : Nat := 1500)
    (overlap : Nat := 200) : List (List Char) :=
  let cleanedText := cleanText text
  if cleanedText.length ≤ maxChars then [cleanedText]
  else
    (splitLoop cleanedText maxChars overlap cleanedText.length 0 []).filter
      (fun c => 50 ≤ c.length)

/-! ## The embedding retry loop -/

def BATCH_SIZE : Nat := 10
def DELAY_BETWEEN_BATCHES : Nat := 5000
def MAX_RETRIES : Nat := 3
def BASE_RETRY_DELAY : Nat := 1000

/-- One outcome of the external `embedContent` call: either a result vector
or a thrown error carrying its message. -/
inductive ApiResult where
  | ok (values : List Int)
  | err (msg : List Char)

/-- Does `needle` match at the head of `haystack`? -/
def matchesAt : List Char → List Char → Bool
  | [], _ => true
  | _ :: _, [] => false
  | a :: as, b :: bs => a == b && matchesAt as bs

/-- JS `String.prototype.includes`: does `needle` occur contiguously in
`haystack`? -/
def containsSeq (needle : List Char) : List Char → Bool
  | [] => matchesAt needle []
  | c :: rest => matchesAt needle (c :: rest) || containsSeq needle rest

/-- `errorMessage?.includes('429') || errorMessage?.includes('Too Many Requests')`. -/
def isRateLimitMsg (msg : List Char) : Bool :=
  containsSeq "429".toList msg || containsSeq "Too Many Requests".toList msg

/-- The observable behaviour of one `generateEmbeddingWithRetry` run: the
returned value, the `delay(...)` waits performed in order, and how many
API calls were made. -/
structure RetryRun where
  result : Option (List Int)
  waits : List Nat
  calls : Nat
deriving DecidableEq

/-- `generateEmbeddingWithRetry(chunk, retryCount)`, with the API modelled
as an oracle giving the outcome of the call made at each `retryCount`, and
explicit fuel (the recursion is guarded by `retryCount < MAX_RETRIES`, so
its depth is at most `MAX_RETRIES + 1` and the fuel is never exhausted).
An `ok` vector is returned only if non-empty (`embedding.length > 0`),
otherwise `null`; a rate-limit-shaped error waits
`BASE_RETRY_DELAY * 2^retryCount` and retries while
`retryCount < MAX_RETRIES`; any other error returns `null` at once. -/
def genRetryAux (api : Nat → ApiResult) : Nat → Nat → RetryRun
  | 0, _ => ⟨none, [], 0⟩
  | fuel+1, retryCount =>
    match api retryCount with
    | .ok embedding =>
      if 0 < embedding.length then ⟨some embedding, [], 1⟩ else ⟨none, [], 1⟩
    | .err msg =>
      if isRateLimitMsg msg then
        if retryCount < MAX_RETRIES then
          let retryDelay := BASE_RETRY_DELAY * 2 ^ retryCount
          let rest := genRetryAux api fuel (retryCount + 1)
          ⟨rest.result, retryDelay :: rest.waits, rest.calls + 1⟩
        else ⟨none, [], 1⟩
      else ⟨none, [], 1⟩

def generateEmbeddingWithRetry (api : Nat → ApiResult) (retryCount : Nat := 0) :
    RetryRun :=
  genRetryAux api (MAX_RETRIES + 1) retryCount

/-! ## The batch scheduler `processChunksInBatches` -/

/-- The metadata attached to each upserted vector (`timestamp` and the
random `id` are environment-supplied and elided). -/
structure VectorMeta where
  text : List Char
  source : List Char
  chunk_index : Nat
  total_chunks : Nat
  batch_number : Nat
deriving DecidableEq

structure EmbeddingVector where
  values : List Int
  metadata : VectorMeta
deriving DecidableEq

/-- The `for (let i = 0; i < chunks.length; i += BATCH_SIZE)` loop of
`processChunksInBatches`, from base index `i` on, with the per-chunk
embedding outcome (the result of `generateEmbeddingWithRetry`) given by an
oracle indexed by global chunk index.  Each batch maps its chunks to a
vector or `null`, drops the `null`s, and appends in order. -/
def processBatchesFrom (embed : Nat → List Char → Option (List Int))
    (fileName : List Char) (totalChunks : Nat) :
    Nat → List (List Char) → Nat → List EmbeddingVector
  | 0, _, _ => []
  | _+1, [], _ => []
  | fuel+1, c :: cs, i =>
    let batch := (c :: cs).take BATCH_SIZE
    let batchNumber := i / BATCH_SIZE + 1
    let batchResults := batch.enum.map fun p =>
      match embed (i + p.1) p.2 with
      | some embedding =>
        some { values := embedding,
               metadata := { text := p.2, source := fileName,
                             chunk_index := i + p.1, total_chunks := totalChunks,
                             batch_number := batchNumber } }
      | none => none
    let validResults := batchResults.filterMap id
    validResults ++
      processBatchesFrom embed fileName totalChunks fuel ((c :: cs).drop BATCH_SIZE) (i + BATCH_SIZE)

/-- `processChunksInBatches(chunks, fileName)` (the 200ms stagger and the
5000ms inter-batch delay do not affect the returned data and are elided;
each loop iteration consumes at least one chunk, so fuel `chunks.length`
is never exhausted). -/
def processChunksInBatches (chunks : List (List Char)) (fileName : List Char)
    (embed : Nat → List Char → Option (List Int)) : List EmbeddingVector :=
  processBatchesFrom embed fileName chunks.length chunks.length chunks 0

/-! ## The Pinecone upsert loop and the `POST` outcome -/

def UPSERT_BATCH_SIZE : Nat := 100

/-- The upsert `for` loop inside `POST`: vectors are sliced into batches of
`UPSERT_BATCH_SIZE` and submitted sequentially; the oracle `fails k` says
whether the `k`-th `index.upsert` call throws.  Returns the batches
successfully stored, in submission order, and whether the loop ran to
completion. -/
def upsertBatchesAux (fails : Nat → Bool) :
    Nat → List EmbeddingVector → Nat → List (List EmbeddingVector) × Bool
  | 0, _, _ => ([], true)
  | _+1, [], _ => ([], true)
  | fuel+1, v :: vs, k =>
    let batch := (v :: vs).take UPSERT_BATCH_SIZE
    if fails k then ([], false)
    else
      let rest := upsertBatchesAux fails fuel ((v :: vs).drop UPSERT_BATCH_SIZE) (k + 1)
      (batch :: rest.1, rest.2)

/-- Entry point with fuel `vectors.length` (each iteration consumes at least
one vector, so the fuel is never exhausted). -/
def upsertBatches (fails : Nat → Bool) (vectors : List EmbeddingVector)
    (k : Nat := 0) : List (List EmbeddingVector) × Bool :=
  upsertBatchesAux fails vectors.length vectors k

/-- The distinct exits of the `POST` handler from the content check on. -/
inductive PostOutcome where
  | emptyFile
  | noChunks
  | noVectors
  | upsertFailed
  | ok (vectorCount totalChunks : Nat)
deriving DecidableEq

/-- The HTTP status each exit responds with. -/
def statusOf : PostOutcome → Nat
  | .emptyFile => 400
  | .noChunks => 400
  | .noVectors => 500
  | .upsertFailed => 500
  | .ok _ _ => 200

/-- The `POST` handler from the `fileContent.trim()` check on, as a pure
outcome: empty content → 400; zero chunks → 400; zero vectors → 500;
an upsert error → 500; otherwise success. -/
def POSTmodel (fileContent fileName : List Char)
    (embed : Nat → List Char → Option (List Int))
    (upsertFails : Nat → Bool) : PostOutcome :=
  if (trim fileContent).length = 0 then .emptyFile
  else
    let chunks := splitTextIntoChunks fileContent
    if chunks.length = 0 then .noChunks
    else
      let vectors := processChunksInBatches chunks fileName embed
      if vectors.length = 0 then .noVectors
      else if (upsertBatches upsertFails vectors 0).2 then
        .ok vectors.length chunks.length
      else .upsertFailed

/-! ## Concrete test inputs -/

/-- The spec's 10-character end-to-end document. -/
def hiText : List Char := "hi there!".toList

/-- 60 `'a'`s, a sentence end at index 60 (`". X"`), then 40 `'b'`s:
with `maxChars = 60` the sentence search hits at the window end and cuts
at index 61. -/
def capText : List Char :=
  List.replicate 60 'a' ++ ['.', ' ', 'X'] ++ List.replicate 40 'b'

/-- 55 `'a'`s, a sentence end at index 55 (`". X"`), then 122 `'b'`s: with
`maxChars = 100, overlap = 50` the only sentence end and the only space lie
below the code's search region `[70, 100]` but inside the region the claim
describes (which starts at `min(end - overlap, ~80% mark) = 50`). -/
def hardText : List Char :=
  List.replicate 55 'a' ++ ['.', ' ', 'X'] ++ List.replicate 122 'b'

/-! ## Basic lemmas about the chunker -/

theorem trim_length_le (l : List Char) : (trim l).length ≤ l.length := by
  have h1 : (l.dropWhile isWS).length ≤ l.length :=
    (List.dropWhile_sublist _).length_le
  have h2 : ((l.dropWhile isWS).reverse.dropWhile isWS).length ≤
      (l.dropWhile isWS).reverse.length :=
    (List.dropWhile_sublist _).length_le
  simp only [trim, List.length_reverse] at *
  omega

theorem searchStartIdx_le (s m : Nat) : searchStartIdx s m ≤ s + m := by
  simp only [searchStartIdx, max_le_iff]
  omega

theorem le_searchStartIdx (s m : Nat) (hm : 1 ≤ m) :
    s + 1 ≤ searchStartIdx s m := by
  simp only [searchStartIdx, le_max_iff]
  right
  omega

/-- `Nat.findGreatest` returns its bound when the predicate holds there. -/
theorem findGreatest_self {P : Nat → Prop} [DecidablePred P] (n : Nat)
    (h : P n) : Nat.findGreatest P n = n := by
  cases n with
  | zero => rfl
  | succ n => rw [Nat.findGreatest_succ, if_pos h]

theorem findTermCutAux_pos (text : List Char) (lo : Nat) :
    ∀ i, lo ≤ i → (∃ j, j ≤ i ∧ lo ≤ j ∧ sentenceCutAt text j = true) →
      findTermCutAux text i (i - lo) =
        some (Nat.findGreatest
          (fun j => lo ≤ j ∧ sentenceCutAt text j = true) i + 1) := by
  intro i hle
  induction i, hle using Nat.le_induction with
  | base =>
    intro h
    obtain ⟨j, hj1, hj2, hj3⟩ := h
    have hji : j = lo := by omega
    rw [hji] at hj3
    rw [Nat.sub_self, findTermCutAux, if_pos hj3,
      findGreatest_self lo ⟨Nat.le_refl lo, hj3⟩]
  | succ i hi ih =>
    intro h
    have hsub : i + 1 - lo = (i - lo) + 1 := by omega
    rw [hsub, findTermCutAux]
    by_cases hti : sentenceCutAt text (i+1) = true
    · rw [if_pos hti, findGreatest_self (i+1) ⟨by omega, hti⟩]
    · rw [if_neg hti]
      obtain ⟨j, hj1, hj2, hj3⟩ := h
      have hji : j ≠ i + 1 := fun hc => hti (hc ▸ hj3)
      have : i + 1 - 1 = i := by omega
      rw [this, ih ⟨j, by omega, hj2, hj3⟩,
        Nat.findGreatest_succ, if_neg (by simp [hti])]

theorem findTermCutAux_neg (text : List Char) (lo : Nat) :
    ∀ i, lo ≤ i → (∀ j, j ≤ i → lo ≤ j → sentenceCutAt text j = false) →
      findTermCutAux text i (i - lo) = none := by
  intro i hle
  induction i, hle using Nat.le_induction with
  | base =>
    intro h
    rw [Nat.sub_self, findTermCutAux,
      if_neg (by simp [h lo (Nat.le_refl lo) (Nat.le_refl lo)])]
  | succ i hi ih =>
    intro h
    have hsub : i + 1 - lo = (i - lo) + 1 := by omega
    rw [hsub, findTermCutAux,
      if_neg (by simp [h (i+1) (Nat.le_refl _) (by omega)])]
    have : i + 1 - 1 = i := by omega
    rw [this]
    exact ih fun j hj1 hj2 => h j (by omega) hj2

theorem findSpaceCutAux_pos (text : List Char) (lo : Nat) :
    ∀ i, lo ≤ i → (∃ j, j ≤ i ∧ lo ≤ j ∧ text.get? j = some ' ') →
      findSpaceCutAux text i (i - lo) =
        some (Nat.findGreatest
          (fun j => lo ≤ j ∧ text.get? j = some ' ') i) := by
  intro i hle
  induction i, hle using Nat.le_induction with
  | base =>
    intro h
    obtain ⟨j, hj1, hj2, hj3⟩ := h
    have hji : j = lo := by omega
    rw [hji] at hj3
    rw [Nat.sub_self, findSpaceCutAux, if_pos hj3,
      findGreatest_self lo ⟨Nat.le_refl lo, hj3⟩]
  | succ i hi ih =>
    intro h
    have hsub : i + 1 - lo = (i - lo) + 1 := by omega
    rw [hsub, findSpaceCutAux]
    by_cases hti : text.get? (i+1) = some ' '
    · rw [if_pos hti, findGreatest_self (i+1) ⟨by omega, hti⟩]
    · rw [if_neg hti]
      obtain ⟨j, hj1, hj2, hj3⟩ := h
      have hji : j ≠ i + 1 := fun hc => hti (hc ▸ hj3)
      have : i + 1 - 1 = i := by omega
      rw [this, ih ⟨j, by omega, hj2, hj3⟩,
        Nat.findGreatest_succ, if_neg (fun hc => hti hc.2)]

theorem findSpaceCutAux_neg (text : List Char) (lo : Nat) :
    ∀ i, lo ≤ i → (∀ j, j ≤ i → lo ≤ j → ¬(text.get? j = some ' ')) →
      findSpaceCutAux text i (i - lo) = none := by
  intro i hle
  induction i, hle using Nat.le_induction with
  | base =>
    intro h
    rw [Nat.sub_self, findSpaceCutAux,
      if_neg (h lo (Nat.le_refl lo) (Nat.le_refl lo))]
  | succ i hi ih =>
    intro h
    have hsub : i + 1 - lo = (i - lo) + 1 := by omega
    rw [hsub, findSpaceCutAux, if_neg (h (i+1) (Nat.le_refl _) (by omega))]
    have : i + 1 - 1 = i := by omega
    rw [this]
    exact ih fun j hj1 hj2 => h j (by omega) hj2

theorem findTermCut_pos (text : List Char) (lo e : Nat) (hle : lo ≤ e)
    (h : ∃ j, j ≤ e ∧ lo ≤ j ∧ sentenceCutAt text j = true) :
    findTermCut text lo e =
      some (Nat.findGreatest (fun j => lo ≤ j ∧ sentenceCutAt text j = true) e + 1) := by
  rw [findTermCut, if_neg (by omega)]
  exact findTermCutAux_pos text lo e hle h

theorem findTermCut_neg (text : List Char) (lo e : Nat)
    (h : ∀ j, j ≤ e → lo ≤ j → sentenceCutAt text j = false) :
    findTermCut text lo e = none := by
  rcases Nat.lt_or_ge e lo with hlt | hge
  · rw [findTermCut, if_pos hlt]
  · rw [findTermCut, if_neg (by omega)]
    exact findTermCutAux_neg text lo e hge h

theorem findSpaceCut_pos (text : List Char) (lo e : Nat) (hle : lo ≤ e)
    (h : ∃ j, j ≤ e ∧ lo ≤ j ∧ text.get? j = some ' ') :
    findSpaceCut text lo e =
      some (Nat.findGreatest (fun j => lo ≤ j ∧ text.get? j = some ' ') e) := by
  rw [findSpaceCut, if_neg (by omega)]
  exact findSpaceCutAux_pos text lo e hle h

theorem findSpaceCut_neg (text : List Char) (lo e : Nat)
    (h : ∀ j, j ≤ e → lo ≤ j → ¬(text.get? j = some ' ')) :
    findSpaceCut text lo e = none := by
  rcases Nat.lt_or_ge e lo with hlt | hge
  · rw [findSpaceCut, if_pos hlt]
  · rw [findSpaceCut, if_neg (by omega)]
    exact findSpaceCutAux_neg text lo e hge h

theorem findTermCut_bounds (text : List Char) (lo e c : Nat) (hle : lo ≤ e)
    (h : findTermCut text lo e = some c) : lo < c ∧ c ≤ e + 1 := by
  by_cases hex : ∃ j, j ≤ e ∧ lo ≤ j ∧ sentenceCutAt text j = true
  · rw [findTermCut_pos text lo e hle hex] at h
    obtain ⟨j, hj1, hj2, hj3⟩ := hex
    have h1 : j ≤ Nat.findGreatest (fun j => lo ≤ j ∧ sentenceCutAt text j = true) e :=
      Nat.le_findGreatest hj1 ⟨hj2, hj3⟩
    have h2 : Nat.findGreatest (fun j => lo ≤ j ∧ sentenceCutAt text j = true) e ≤ e :=
      Nat.findGreatest_le e
    injection h with h
    omega
  · rw [findTermCut_neg text lo e] at h
    · exact absurd h (by simp)
    · intro j hj1 hj2
      by_contra hc
      exact hex ⟨j, hj1, hj2, by simpa using hc⟩

theorem findSpaceCut_bounds (text : List Char) (lo e c : Nat) (hle : lo ≤ e)
    (h : findSpaceCut text lo e = some c) : lo ≤ c ∧ c ≤ e := by
  by_cases hex : ∃ j, j ≤ e ∧ lo ≤ j ∧ text.get? j = some ' '
  · rw [findSpaceCut_pos text lo e hle hex] at h
    obtain ⟨j, hj1, hj2, hj3⟩ := hex
    have h1 : j ≤ Nat.findGreatest (fun j => lo ≤ j ∧ text.get? j = some ' ') e :=
      Nat.le_findGreatest hj1 ⟨hj2, hj3⟩
    have h2 : Nat.findGreatest (fun j => lo ≤ j ∧ text.get? j = some ' ') e ≤ e :=
      Nat.findGreatest_le e
    injection h with h
    omega
  · rw [findSpaceCut_neg text lo e] at h
    · exact absurd h (by simp)
    · exact fun j hj1 hj2 hc => hex ⟨j, hj1, hj2, hc⟩

/-- The chosen cut point never exceeds `startIndex + maxChars + 1` (it can
reach `endIndex + 1` when a sentence end sits exactly at `endIndex`). -/
theorem chunkEndIdx_le (text : List Char) (s m : Nat) :
    chunkEndIdx text s m ≤ s + m + 1 := by
  have hle : searchStartIdx s m ≤ s + m := searchStartIdx_le s m
  rw [chunkEndIdx]
  rcases h1 : findTermCut text (searchStartIdx s m) (s + m) with _ | c
  · simp only [h1]
    rcases h2 : findSpaceCut text (searchStartIdx s m) (s + m) with _ | c
    · simp [h2]
    · have := findSpaceCut_bounds text _ _ _ hle h2
      simp [h2]
      omega
  · have hb := findTermCut_bounds text _ _ _ hle h1
    simp only [h1]
    by_cases hc : c = s + m
    · rw [if_pos hc]
      rcases h2 : findSpaceCut text (searchStartIdx s m) (s + m) with _ | c2
      · simp [h2]
      · have := findSpaceCut_bounds text _ _ _ hle h2
        simp [h2]
        omega
    · rw [if_neg hc]
      omega

/-- For `1 ≤ maxChars` the chosen cut point lies strictly beyond the cursor. -/
theorem lt_chunkEndIdx (text : List Char) (s m : Nat) (hm : 1 ≤ m) :
    s < chunkEndIdx text s m := by
  have hlo : s + 1 ≤ searchStartIdx s m := le_searchStartIdx s m hm
  have hle : searchStartIdx s m ≤ s + m := searchStartIdx_le s m
  rw [chunkEndIdx]
  rcases h1 : findTermCut text (searchStartIdx s m) (s + m) with _ | c
  · simp only [h1]
    rcases h2 : findSpaceCut text (searchStartIdx s m) (s + m) with _ | c
    · simp [h2]
      omega
    · have := findSpaceCut_bounds text _ _ _ hle h2
      simp [h2]
      omega
  · have hb := findTermCut_bounds text _ _ _ hle h1
    simp only [h1]
    by_cases hc : c = s + m
    · rw [if_pos hc]
      rcases h2 : findSpaceCut text (searchStartIdx s m) (s + m) with _ | c2
      · simp [h2]
        omega
      · have := findSpaceCut_bounds text _ _ _ hle h2
        simp [h2]
        omega
    · rw [if_neg hc]
      omega

/-- The cursor strictly advances: the next start index exceeds the current
one whenever the cut point does (which `lt_chunkEndIdx` guarantees). -/
theorem lt_nextStartIdx (s o ce : Nat) (h : s < ce) :
    s < nextStartIdx s o ce := by
  rw [nextStartIdx]
  split <;> omega

/-- Any predicate holding of all accumulated chunks and of every chunk the
loop can push (final or mid-loop, under the `> 50` emission guard) holds of
every chunk `splitLoop` returns. -/
theorem splitLoop_mem (text : List Char) (m o : Nat) (P : List Char → Prop)
    (hfinal : ∀ start, text.length ≤ start + m →
      50 < (trim (text.drop start)).length → P (trim (text.drop start)))
    (hmid : ∀ start,
      50 < (trim ((text.drop start).take (chunkEndIdx text start m - start))).length →
      P (trim ((text.drop start).take (chunkEndIdx text start m - start)))) :
    ∀ fuel start acc, (∀ c ∈ acc, P c) →
      ∀ c ∈ splitLoop text m o fuel start acc, P c := by
  intro fuel
  induction fuel with
  | zero =>
    intro start acc hacc c hc
    simp only [splitLoop] at hc
    exact hacc c (List.mem_reverse.mp hc)
  | succ fuel ih =>
    intro start acc hacc c hc
    simp only [splitLoop] at hc
    by_cases h1 : start < text.length
    · rw [if_pos h1] at hc
      by_cases h2 : text.length ≤ start + m
      · rw [if_pos h2] at hc
        rw [List.mem_reverse] at hc
        by_cases h3 : 50 < (trim (text.drop start)).length
        · rw [if_pos h3] at hc
          rcases List.mem_cons.mp hc with rfl | hmem
          · exact hfinal start h2 h3
          · exact hacc c hmem
        · rw [if_neg h3] at hc
          exact hacc c hc
      · rw [if_neg h2] at hc
        refine ih _ _ ?_ c hc
        intro d hd
        by_cases h3 :
            50 < (trim ((text.drop start).take (chunkEndIdx text start m - start))).length
        · rw [if_pos h3] at hd
          rcases List.mem_cons.mp hd with rfl | hmem
          · exact hmid start h3
          · exact hacc d hmem
        · rw [if_neg h3] at hd
          exact hacc d hd
    · rw [if_neg h1] at hc
      exact hacc c (List.mem_reverse.mp hc)

/-! ## Claim C1 -/

/-- C1 (amended): for every input whose normalized length is at most
`maxChars`, `splitTextIntoChunks` returns exactly one chunk equal to the
normalized text, regardless of that text's length — the early return on the
single-chunk path bypasses the 50-character floor. -/
theorem claim_C1_theorem : ∀ (text : List Char) (m o : Nat),
    (cleanText text).length ≤ m →
    splitTextIntoChunks text m o = [cleanText text] := by
  intro text m o h
  simp only [splitTextIntoChunks]
  rw [if_pos h]

theorem claim_C1_witness :
    (cleanText hiText).length ≤ 1500 ∧
    splitTextIntoChunks hiText 1500 200 = [cleanText hiText] :=
  ⟨by decide, claim_C1_theorem hiText 1500 200 (by decide)⟩

/-- C1 is false as stated: the 9-character normalized document
`"hi there!"` yields one chunk, not zero, and the `POST` pipeline then
succeeds (HTTP 200) instead of reporting a hard failure. -/
theorem claim_C1_counterexample :
    (cleanText hiText).length = 9 ∧
    splitTextIntoChunks hiText 1500 200 ≠ [] ∧
    POSTmodel hiText "doc.txt".toList (fun _ _ => some [1]) (fun _ => false) =
      PostOutcome.ok 1 1 ∧
    statusOf (PostOutcome.ok 1 1) = 200 := by decide

/-! ## Claim C2 -/

/-- C2 (amended): on the multi-chunk path (normalized length strictly
greater than `maxChars`), every chunk in the returned list has length
strictly greater than 50; chunks are emitted already trimmed. -/
theorem claim_C2_theorem : ∀ (text : List Char) (m o : Nat),
    m < (cleanText text).length →
    ∀ c ∈ splitTextIntoChunks text m o, 50 < c.length := by
  intro text m o hm c hc
  simp only [splitTextIntoChunks] at hc
  rw [if_neg (by omega)] at hc
  exact splitLoop_mem (cleanText text) m o (fun c => 50 < c.length)
    (fun _ _ h => h) (fun _ h => h) (cleanText text).length 0 [] (by simp)
    c (List.mem_of_mem_filter hc)

theorem claim_C2_witness :
    60 < (cleanText capText).length ∧
    ∀ c ∈ splitTextIntoChunks capText 60 10, 50 < c.length :=
  ⟨by decide, claim_C2_theorem capText 60 10 (by decide)⟩

/-- C2 is false as stated (over all inputs): with the valid default
parameters `maxChars = 1500 > overlap = 200 ≥ 0`, the 9-character input
`"hi there!"` produces a chunk of trimmed length 9 ≤ 50 via the
single-chunk early return. -/
theorem claim_C2_counterexample :
    200 < 1500 ∧
    ¬(∀ c ∈ splitTextIntoChunks hiText 1500 200, 50 < (trim c).length) := by
  decide

/-! ## Claim C10 -/

/-- C10 (amended): every chunk returned by `splitTextIntoChunks` has length
at most `maxChars + 1` — not `maxChars`: when a sentence terminator sits
exactly at the window end `startIndex + maxChars`, the cut point is
`endIndex + 1` and the emitted chunk has `maxChars + 1` characters. -/
theorem claim_C10_theorem : ∀ (text : List Char) (m o : Nat),
    ∀ c ∈ splitTextIntoChunks text m o, c.length ≤ m + 1 := by
  intro text m o c hc
  simp only [splitTextIntoChunks] at hc
  by_cases h : (cleanText text).length ≤ m
  · rw [if_pos h] at hc
    rw [List.mem_singleton] at hc
    subst hc
    omega
  · rw [if_neg h] at hc
    refine splitLoop_mem (cleanText text) m o (fun c => c.length ≤ m + 1) ?_ ?_
      (cleanText text).length 0 [] (by simp) c (List.mem_of_mem_filter hc)
    · intro start h2 _
      have ht := trim_length_le ((cleanText text).drop start)
      have hd : ((cleanText text).drop start).length = (cleanText text).length - start :=
        List.length_drop _ _
      omega
    · intro start _
      have ht := trim_length_le
        (((cleanText text).drop start).take (chunkEndIdx (cleanText text) start m - start))
      have htk : (((cleanText text).drop start).take
          (chunkEndIdx (cleanText text) start m - start)).length ≤
          chunkEndIdx (cleanText text) start m - start := by
        rw [List.length_take]
        omega
      have hce := chunkEndIdx_le (cleanText text) start m
      omega

theorem claim_C10_witness :
    (List.replicate 60 'a' ++ ['.']) ∈ splitTextIntoChunks capText 60 10 ∧
    (List.replicate 60 'a' ++ ['.']).length ≤ 60 + 1 :=
  ⟨by decide, claim_C10_theorem capText 60 10 _ (by decide)⟩

/-- C10 is false as stated: with valid parameters `maxChars = 60 >
overlap = 10 ≥ 0`, the input `capText` (a sentence end exactly at the
window boundary) yields a chunk of length 61 > 60. -/
theorem claim_C10_counterexample :
    10 < 60 ∧
    ¬(∀ c ∈ splitTextIntoChunks capText 60 10, c.length ≤ 60) := by
  decide

/-! ## Claim C7 -/

/-- With any fuel at least `text.length - start`, `splitLoop` computes the
same result: the strictly advancing cursor reaches the exit first, so the
JS `while` loop terminates and the fuelled model is faithful to it. -/
theorem splitLoop_fuel_stable (text : List Char) (m o : Nat) (hm : 1 ≤ m) :
    ∀ fuel₁ fuel₂ start acc,
      text.length - start ≤ fuel₁ → text.length - start ≤ fuel₂ →
      splitLoop text m o fuel₁ start acc = splitLoop text m o fuel₂ start acc := by
  intro fuel₁
  induction fuel₁ with
  | zero =>
    intro fuel₂ start acc h1 h2
    cases fuel₂ with
    | zero => rfl
    | succ f2 =>
      simp only [splitLoop]
      rw [if_neg (by omega)]
  | succ fuel ih =>
    intro fuel₂ start acc h1 h2
    cases fuel₂ with
    | zero =>
      simp only [splitLoop]
      rw [if_neg (by omega)]
    | succ f2 =>
      simp only [splitLoop]
      by_cases hlt : start < text.length
      · rw [if_pos hlt, if_pos hlt]
        by_cases hfin : text.length ≤ start + m
        · rw [if_pos hfin, if_pos hfin]
        · rw [if_neg hfin, if_neg hfin]
          have hprog : start < nextStartIdx start o (chunkEndIdx text start m) :=
            lt_nextStartIdx _ _ _ (lt_chunkEndIdx text start m hm)
          exact ih f2 _ _ (by omega) (by omega)
      · rw [if_neg hlt, if_neg hlt]

/-- C7: for `1 ≤ maxChars` (the default is 1500) the cursor strictly
increases on every loop iteration — `nextStartIdx` always exceeds the
previous `startIndex`, for any text, including texts with no spaces and no
sentence terminators — and consequently the loop terminates: any fuel at
least `text.length - start` gives the loop's fixed result. -/
theorem claim_C7_theorem : ∀ (text : List Char) (m o : Nat), 1 ≤ m →
    (∀ start, start < nextStartIdx start o (chunkEndIdx text start m)) ∧
    (∀ fuel start acc, text.length - start ≤ fuel →
      splitLoop text m o fuel start acc =
        splitLoop text m o (text.length - start) start acc) := by
  intro text m o hm
  constructor
  · intro start
    exact lt_nextStartIdx _ _ _ (lt_chunkEndIdx text start m hm)
  · intro fuel start acc h
    exact splitLoop_fuel_stable text m o hm fuel (text.length - start) start acc h
      (Nat.le_refl _)

theorem claim_C7_witness :
    0 < nextStartIdx 0 10 (chunkEndIdx capText 0 60) ∧
    splitLoop capText 60 10 200 0 [] =
      splitLoop capText 60 10 (capText.length - 0) 0 [] :=
  ⟨(claim_C7_theorem capText 60 10 (by decide)).1 0,
   (claim_C7_theorem capText 60 10 (by decide)).2 200 0 [] (by decide)⟩

/-! ## Claim C6 -/

/-- 50 `'a'`s, a space at index 50, then 60 `'b'`s: no sentence end
anywhere, a space inside the search region `[42, 60]` of the first
`maxChars = 60` window. -/
def wordText : List Char :=
  List.replicate 50 'a' ++ [' '] ++ List.replicate 60 'b'

/-- The search-region start as the claim describes it: the earlier of
(window end minus `overlap`) and the last ~20% of the window (taken as the
`⌈0.8 * maxChars⌉` mark). -/
def specSearchStartIdx (startIndex maxChars overlap : Nat) : Nat :=
  min ((startIndex + maxChars) - overlap) (startIndex + (8 * maxChars + 9) / 10)

/-- The cut-point selection as the claim describes it: preferred terminator
cut searched over the claimed region, else the nearest preceding space in
that region, else a hard cut at `maxChars`. -/
def specChunkEndIdx (text : List Char) (startIndex maxChars overlap : Nat) : Nat :=
  let endIndex := startIndex + maxChars
  let lo := specSearchStartIdx startIndex maxChars overlap
  match findTermCut text lo endIndex with
  | some c => c
  | none =>
    match findSpaceCut text lo endIndex with
    | some c => c
    | none => endIndex

/-- A qualifying sentence end at `j` is followed by a space at `j + 1`. -/
theorem sentenceCutAt_space (text : List Char) (j : Nat)
    (h : sentenceCutAt text j = true) : text.get? (j+1) = some ' ' := by
  rw [sentenceCutAt] at h
  rcases hj : text.get? j with _ | c
  · rw [hj] at h
    simp at h
  · rw [hj] at h
    rcases hj1 : text.get? (j+1) with _ | n
    · rw [hj1] at h
      simp at h
    · rcases hj2 : text.get? (j+2) with _ | a
      · rw [hj1, hj2] at h
        simp at h
      · rw [hj1, hj2] at h
        simp only [Bool.and_eq_true, decide_eq_true_eq] at h
        rw [h.2.1]

/-- C6 (amended): for a non-final window starting at `s`, the cut point is
determined over the region `[searchStartIdx s maxChars, s + maxChars]` —
whose start is the LATER of `s + maxChars - 200` (the literal 200; the
`overlap` parameter is not consulted) and `s + ⌈0.7 * maxChars⌉` (the last
~30% of the window): one past the greatest position holding a terminator
followed by a space and a character equal to its own uppercase, if any;
else the greatest space position in the region, if any; else a hard cut at
`s + maxChars`. -/
theorem claim_C6_theorem : ∀ (text : List Char) (s m : Nat),
    ((∃ j, j ≤ s + m ∧ searchStartIdx s m ≤ j ∧ sentenceCutAt text j = true) →
      chunkEndIdx text s m =
        Nat.findGreatest
          (fun j => searchStartIdx s m ≤ j ∧ sentenceCutAt text j = true)
          (s + m) + 1) ∧
    ((∀ j, j ≤ s + m → searchStartIdx s m ≤ j → sentenceCutAt text j = false) →
      (∃ j, j ≤ s + m ∧ searchStartIdx s m ≤ j ∧ text.get? j = some ' ') →
      chunkEndIdx text s m =
        Nat.findGreatest
          (fun j => searchStartIdx s m ≤ j ∧ text.get? j = some ' ') (s + m)) ∧
    ((∀ j, j ≤ s + m → searchStartIdx s m ≤ j → sentenceCutAt text j = false) →
      (∀ j, j ≤ s + m → searchStartIdx s m ≤ j → ¬(text.get? j = some ' ')) →
      chunkEndIdx text s m = s + m) := by
  intro text s m
  have hle : searchStartIdx s m ≤ s + m := searchStartIdx_le s m
  refine ⟨?_, ?_, ?_⟩
  · intro hex
    have hT := findTermCut_pos text _ _ hle hex
    obtain ⟨j, hj1, hj2, hj3⟩ := hex
    have hPg := Nat.findGreatest_spec
      (P := fun j => searchStartIdx s m ≤ j ∧ sentenceCutAt text j = true)
      hj1 ⟨hj2, hj3⟩
    set g := Nat.findGreatest
      (fun j => searchStartIdx s m ≤ j ∧ sentenceCutAt text j = true) (s + m)
      with hg
    rw [chunkEndIdx]
    simp only [hT]
    by_cases hc : g + 1 = s + m
    · rw [if_pos hc]
      have hsp : text.get? (g + 1) = some ' ' := sentenceCutAt_space text g hPg.2
      have hsp2 : text.get? (s + m) = some ' ' := by rw [← hc]; exact hsp
      have hS := findSpaceCut_pos text _ _ hle ⟨s + m, Nat.le_refl _, hle, hsp2⟩
      simp only [hS]
      rw [findGreatest_self
        (P := fun j => searchStartIdx s m ≤ j ∧ text.get? j = some ' ')
        (s + m) ⟨hle, hsp2⟩]
      omega
    · rw [if_neg hc]
  · intro hallT hexS
    have hT := findTermCut_neg text _ _ hallT
    have hS := findSpaceCut_pos text _ _ hle hexS
    rw [chunkEndIdx]
    simp only [hT, hS]
    simp
  · intro hallT hallS
    have hT := findTermCut_neg text _ _ hallT
    have hS := findSpaceCut_neg text _ _ hallS
    rw [chunkEndIdx]
    simp only [hT, hS]
    simp

theorem claim_C6_witness :
    (chunkEndIdx capText 0 60 =
      Nat.findGreatest
        (fun j => searchStartIdx 0 60 ≤ j ∧ sentenceCutAt capText j = true)
        60 + 1) ∧
    (chunkEndIdx wordText 0 60 =
      Nat.findGreatest
        (fun j => searchStartIdx 0 60 ≤ j ∧ wordText.get? j = some ' ') 60) ∧
    chunkEndIdx hardText 0 100 = 0 + 100 :=
  ⟨(claim_C6_theorem capText 0 60).1 ⟨60, by decide, by decide, by decide⟩,
   (claim_C6_theorem wordText 0 60).2.1 (by decide)
     ⟨50, by decide, by decide, by decide⟩,
   (claim_C6_theorem hardText 0 100).2.2 (by decide) (by decide)⟩

/-- C6 is false as stated: in `hardText`'s first `maxChars = 100,
overlap = 50` window, a qualifying sentence end sits at index 55, inside
the claimed search region (which starts at
`specSearchStartIdx 0 100 50 = 50`), yet the code's region starts at
`searchStartIdx 0 100 = 70` (`Math.max`, not the claimed "earlier of", and
the literal 200 rather than `overlap`), finds nothing, and hard-cuts at
100: the first emitted chunk has 100 characters instead of ending at the
terminator cut 56. -/
theorem claim_C6_counterexample :
    sentenceCutAt hardText 55 = true ∧
    specSearchStartIdx 0 100 50 = 50 ∧
    searchStartIdx 0 100 = 70 ∧
    specChunkEndIdx hardText 0 100 50 = 56 ∧
    chunkEndIdx hardText 0 100 = 100 ∧
    ((splitTextIntoChunks hardText 100 50).get? 0).map List.length =
      some 100 := by decide

/-! ## Claims C3 and C9 -/

/-- One unfolding of the fuelled retry loop. -/
theorem genRetryAux_succ (api : Nat → ApiResult) (fuel retryCount : Nat) :
    genRetryAux api (fuel+1) retryCount =
      match api retryCount with
      | .ok embedding =>
        if 0 < embedding.length then ⟨some embedding, [], 1⟩ else ⟨none, [], 1⟩
      | .err msg =>
        if isRateLimitMsg msg then
          if retryCount < MAX_RETRIES then
            ⟨(genRetryAux api fuel (retryCount+1)).result,
             BASE_RETRY_DELAY * 2 ^ retryCount ::
               (genRetryAux api fuel (retryCount+1)).waits,
             (genRetryAux api fuel (retryCount+1)).calls + 1⟩
          else ⟨none, [], 1⟩
        else ⟨none, [], 1⟩ := rfl

/-- C3: when every API call raises a rate-limit-shaped error, the retry
loop makes exactly 3 retries after the initial attempt (4 calls in all),
waiting `BASE_RETRY_DELAY * 2^attempt` = 1000ms, 2000ms, 4000ms before the
retries, then returns null; a non-rate-limit error returns null at once
with no retry and no wait. -/
theorem claim_C3_theorem :
    (∀ api : Nat → ApiResult,
      (∀ n, ∃ msg, api n = .err msg ∧ isRateLimitMsg msg = true) →
      generateEmbeddingWithRetry api 0 = ⟨none, [1000, 2000, 4000], 4⟩) ∧
    (∀ (api : Nat → ApiResult) (msg : List Char),
      api 0 = .err msg → isRateLimitMsg msg = false →
      generateEmbeddingWithRetry api 0 = ⟨none, [], 1⟩) := by
  constructor
  · intro api h
    obtain ⟨m0, hm0, hr0⟩ := h 0
    obtain ⟨m1, hm1, hr1⟩ := h 1
    obtain ⟨m2, hm2, hr2⟩ := h 2
    obtain ⟨m3, hm3, hr3⟩ := h 3
    have e3 : ∀ f, genRetryAux api (f+1) 3 = ⟨none, [], 1⟩ := by
      intro f
      rw [genRetryAux_succ, hm3]
      simp [hr3, MAX_RETRIES]
    have e2 : ∀ f, genRetryAux api (f+1+1) 2 = ⟨none, [4000], 2⟩ := by
      intro f
      rw [genRetryAux_succ, hm2]
      simp [hr2, MAX_RETRIES, BASE_RETRY_DELAY, e3]
    have e1 : ∀ f, genRetryAux api (f+1+1+1) 1 = ⟨none, [2000, 4000], 3⟩ := by
      intro f
      rw [genRetryAux_succ, hm1]
      simp [hr1, MAX_RETRIES, BASE_RETRY_DELAY, e2]
    have e0 : ∀ f, genRetryAux api (f+1+1+1+1) 0 = ⟨none, [1000, 2000, 4000], 4⟩ := by
      intro f
      rw [genRetryAux_succ, hm0]
      simp [hr0, MAX_RETRIES, BASE_RETRY_DELAY, e1]
    exact e0 0
  · intro api msg hmsg hr
    show genRetryAux api (MAX_RETRIES + 1) 0 = _
    rw [genRetryAux_succ, hmsg]
    simp [hr]

theorem claim_C3_witness :
    generateEmbeddingWithRetry (fun _ => ApiResult.err "429".toList) 0 =
      ⟨none, [1000, 2000, 4000], 4⟩ ∧
    generateEmbeddingWithRetry (fun _ => ApiResult.err "boom".toList) 0 =
      ⟨none, [], 1⟩ :=
  ⟨claim_C3_theorem.1 _ (fun _ => ⟨"429".toList, rfl, by decide⟩),
   claim_C3_theorem.2 _ "boom".toList rfl (by decide)⟩

theorem genRetryAux_result (api : Nat → ApiResult) :
    ∀ fuel r, (genRetryAux api fuel r).result = none ∨
      ∃ v, (genRetryAux api fuel r).result = some v ∧ 0 < v.length := by
  intro fuel
  induction fuel with
  | zero => intro r; left; rfl
  | succ fuel ih =>
    intro r
    rw [genRetryAux_succ]
    rcases ha : api r with values | msg
    · by_cases hl : 0 < values.length
      · right
        exact ⟨values, by simp [hl], hl⟩
      · left
        simp [hl]
    · by_cases hrl : isRateLimitMsg msg
      · by_cases hlt : r < MAX_RETRIES
        · simp only [hrl, hlt, if_true]
          exact ih (r+1)
        · left
          simp [hrl, hlt]
      · left
        simp [hrl]

theorem genRetryAux_calls (api : Nat → ApiResult) :
    ∀ fuel r, (genRetryAux api fuel r).calls ≤ fuel := by
  intro fuel
  induction fuel with
  | zero => intro r; exact Nat.le_refl 0
  | succ fuel ih =>
    intro r
    rw [genRetryAux_succ]
    rcases ha : api r with values | msg
    · by_cases hl : 0 < values.length <;> simp [hl]
    · by_cases hrl : isRateLimitMsg msg
      · by_cases hlt : r < MAX_RETRIES
        · simp only [hrl, hlt, if_true]
          show (genRetryAux api fuel (r+1)).calls + 1 ≤ fuel + 1
          have := ih (r+1)
          omega
        · simp [hrl, hlt]
      · simp [hrl]

/-- C9: the embedding helper is total and absorbs every failure: for every
behaviour of the external call it returns either null or a non-empty
vector (never an exception), makes at most `MAX_RETRIES + 1` calls, and a
response carrying an empty vector yields null exactly as an error does
(one call, no waits, null result). -/
theorem claim_C9_theorem : ∀ (api : Nat → ApiResult) (retryCount : Nat),
    ((generateEmbeddingWithRetry api retryCount).result = none ∨
      ∃ v, (generateEmbeddingWithRetry api retryCount).result = some v ∧
        0 < v.length) ∧
    (generateEmbeddingWithRetry api retryCount).calls ≤ MAX_RETRIES + 1 ∧
    (∀ values, api retryCount = .ok values → values.length = 0 →
      generateEmbeddingWithRetry api retryCount = ⟨none, [], 1⟩) := by
  intro api retryCount
  refine ⟨genRetryAux_result api _ _, genRetryAux_calls api _ _, ?_⟩
  intro values hv hl
  show genRetryAux api (MAX_RETRIES + 1) retryCount = _
  rw [genRetryAux_succ, hv]
  simp [hl]

theorem claim_C9_witness :
    generateEmbeddingWithRetry (fun _ => ApiResult.ok []) 0 = ⟨none, [], 1⟩ :=
  (claim_C9_theorem (fun _ => ApiResult.ok []) 0).2.2 [] rfl rfl

/-! ## Claims C8 and C4 -/

/-- The vector (or `null`) produced for the chunk at global index `p.1`:
its metadata records the chunk text, the file name, the global index, the
total chunk count and the 1-based batch number `⌊p.1 / BATCH_SIZE⌋ + 1`. -/
def vecOfEmbed (embed : Nat → List Char → Option (List Int))
    (fn : List Char) (total : Nat) (p : Nat × List Char) :
    Option EmbeddingVector :=
  match embed p.1 p.2 with
  | some embedding =>
    some { values := embedding,
           metadata := { text := p.2, source := fn, chunk_index := p.1,
                         total_chunks := total,
                         batch_number := p.1 / BATCH_SIZE + 1 } }
  | none => none

theorem batchChunk_filterMap (embed : Nat → List Char → Option (List Int))
    (fn : List Char) (total bn i : Nat) :
    ∀ (batch : List (List Char)) (b : Nat),
      (∀ j, j < batch.length → (i + (b + j)) / BATCH_SIZE + 1 = bn) →
      ((batch.enumFrom b).map (fun p =>
          match embed (i + p.1) p.2 with
          | some embedding =>
            some { values := embedding,
                   metadata := { text := p.2, source := fn,
                                 chunk_index := i + p.1, total_chunks := total,
                                 batch_number := bn } }
          | none => none)).filterMap id =
        (batch.enumFrom (i + b)).filterMap (vecOfEmbed embed fn total) := by
  intro batch
  induction batch with
  | nil => intro b h; rfl
  | cons t ts ih =>
    intro b h
    have hbn : (i + b) / BATCH_SIZE + 1 = bn := by
      have h0 := h 0 (by simp)
      simpa using h0
    have htail := ih (b+1) (fun j hj => by
      have h2 := h (j+1) (by simp only [List.length_cons]; omega)
      have hshift : b + 1 + j = b + (j + 1) := by omega
      rw [hshift]
      exact h2)
    simp only [List.enumFrom_cons, List.map_cons, List.filterMap_cons]
    rcases he : embed (i + b) t with _ | e
    · simp only [he, vecOfEmbed, id]
      exact htail
    · simp only [he, vecOfEmbed, id]
      rw [htail, hbn]
      have hassoc : i + (b + 1) = i + b + 1 := by omega
      rw [hassoc]

/-- `processBatchesFrom` is the order-preserving `filterMap` of the
per-chunk embedding over the globally indexed chunk list (for any batch
base `i` that is a multiple of `BATCH_SIZE` and sufficient fuel). -/
theorem processBatchesFrom_eq (embed : Nat → List Char → Option (List Int))
    (fn : List Char) (total : Nat) :
    ∀ (fuel : Nat) (chunks : List (List Char)) (i : Nat),
      chunks.length ≤ fuel → BATCH_SIZE ∣ i →
      processBatchesFrom embed fn total fuel chunks i =
        (chunks.enumFrom i).filterMap (vecOfEmbed embed fn total) := by
  intro fuel
  induction fuel with
  | zero =>
    intro chunks i hlen _
    have hnil : chunks = [] := List.length_eq_zero.mp (Nat.le_zero.mp hlen)
    subst hnil
    rfl
  | succ fuel ih =>
    intro chunks i hlen hdvd
    cases chunks with
    | nil => rfl
    | cons c cs =>
      simp only [processBatchesFrom]
      rw [ih ((c :: cs).drop BATCH_SIZE) (i + BATCH_SIZE)
        (by simp only [List.length_drop, List.length_cons, BATCH_SIZE] at *; omega)
        (dvd_add hdvd dvd_rfl)]
      have hbatch := batchChunk_filterMap embed fn total (i / BATCH_SIZE + 1) i
        ((c :: cs).take BATCH_SIZE) 0 (fun j hj => by
          have hlt : j < BATCH_SIZE := by
            have := List.length_take BATCH_SIZE (c :: cs)
            omega
          obtain ⟨k, rfl⟩ := hdvd
          simp only [BATCH_SIZE] at *
          omega)
      conv_rhs => rw [← List.take_append_drop BATCH_SIZE (c :: cs)]
      rw [List.enumFrom_append, List.filterMap_append]
      have htail2 :
          List.filterMap (vecOfEmbed embed fn total)
            (List.enumFrom (i + BATCH_SIZE) ((c :: cs).drop BATCH_SIZE)) =
          List.filterMap (vecOfEmbed embed fn total)
            (List.enumFrom (i + ((c :: cs).take BATCH_SIZE).length)
              ((c :: cs).drop BATCH_SIZE)) := by
        by_cases hlen10 : BATCH_SIZE ≤ (c :: cs).length
        · rw [List.length_take, Nat.min_eq_left hlen10]
        · rw [List.drop_eq_nil_of_le (by omega)]
          rfl
      rw [← htail2]
      exact congrArg (fun x =>
        x ++ List.filterMap (vecOfEmbed embed fn total)
          (List.enumFrom (i + BATCH_SIZE) ((c :: cs).drop BATCH_SIZE))) hbatch

/-- `processChunksInBatches` as a whole: the order-preserving `filterMap`
of the embedding over the globally indexed chunk list. -/
theorem processChunksInBatches_eq (chunks : List (List Char))
    (fn : List Char) (embed : Nat → List Char → Option (List Int)) :
    processChunksInBatches chunks fn embed =
      chunks.enum.filterMap (vecOfEmbed embed fn chunks.length) := by
  rw [processChunksInBatches,
    processBatchesFrom_eq embed fn chunks.length chunks.length chunks 0
      (Nat.le_refl _) (Dvd.intro 0 rfl)]
  rfl

/-- A member of `enumFrom n l` is the element of `l` at its recorded
index. -/
theorem get?_of_mem_enumFrom :
    ∀ (l : List (List Char)) (n : Nat) (p : Nat × List Char),
      p ∈ l.enumFrom n → n ≤ p.1 ∧ l.get? (p.1 - n) = some p.2 := by
  intro l
  induction l with
  | nil =>
    intro n p h
    simp [List.enumFrom] at h
  | cons a as ih =>
    intro n p h
    rw [List.enumFrom_cons] at h
    rcases List.mem_cons.mp h with rfl | htail
    · exact ⟨Nat.le_refl _, by simp⟩
    · obtain ⟨h1, h2⟩ := ih (n+1) p htail
      refine ⟨by omega, ?_⟩
      have hs : p.1 - n = (p.1 - (n+1)) + 1 := by omega
      rw [hs]
      simpa using h2

/-- C8: `processChunksInBatches` partitions the chunks into consecutive
batches of `BATCH_SIZE = 10` in list order and equals the order-preserving
`filterMap` of the embedding over the globally indexed chunks; every
produced vector carries metadata with `chunk_index` equal to its global
index `g`, `total_chunks` equal to the input length, and `batch_number`
equal to `⌊g / 10⌋ + 1` (see `vecOfEmbed`). -/
theorem claim_C8_theorem :
    ∀ (chunks : List (List Char)) (fn : List Char)
      (embed : Nat → List Char → Option (List Int)),
      processChunksInBatches chunks fn embed =
        chunks.enum.filterMap (vecOfEmbed embed fn chunks.length) :=
  fun chunks fn embed => processChunksInBatches_eq chunks fn embed

/-- C4: a chunk whose embedding attempt returned null is absent from the
returned vector list (no vector carries its global index); if every
chunk's embedding returns null the scheduler returns the empty list, and
the `POST` caller then answers `noVectors` (HTTP 500), distinct from the
zero-chunks error `noChunks` (HTTP 400). -/
theorem claim_C4_theorem :
    ∀ (chunks : List (List Char)) (fn : List Char)
      (embed : Nat → List Char → Option (List Int)),
      (∀ g, embed g (chunks.getD g []) = none →
        ∀ v ∈ processChunksInBatches chunks fn embed,
          v.metadata.chunk_index ≠ g) ∧
      ((∀ g, embed g (chunks.getD g []) = none) →
        processChunksInBatches chunks fn embed = []) ∧
      (∀ (fileContent : List Char) (fails : Nat → Bool),
        (trim fileContent).length ≠ 0 →
        (∀ g c, embed g c = none) →
        splitTextIntoChunks fileContent ≠ [] →
        POSTmodel fileContent fn embed fails = PostOutcome.noVectors ∧
        statusOf PostOutcome.noVectors = 500 ∧
        statusOf PostOutcome.noChunks = 400) := by
  intro chunks fn embed
  refine ⟨?_, ?_, ?_⟩
  · intro g hnone v hv hidx
    rw [processChunksInBatches_eq] at hv
    obtain ⟨p, hp, hvp⟩ := List.mem_filterMap.mp hv
    obtain ⟨-, hget⟩ := get?_of_mem_enumFrom chunks 0 p hp
    rw [Nat.sub_zero] at hget
    rcases he : embed p.1 p.2 with _ | e
    · rw [vecOfEmbed, he] at hvp
      exact absurd hvp (by simp)
    · rw [vecOfEmbed, he] at hvp
      obtain rfl := Option.some.inj hvp
      have hpg : p.1 = g := hidx
      rw [hpg] at he hget
      have : chunks.getD g [] = p.2 := by
        unfold List.getD
        rw [hget]
        rfl
      rw [this] at hnone
      rw [hnone] at he
      exact absurd he (by simp)
  · intro hall
    rw [processChunksInBatches_eq]
    rw [List.filterMap_eq_nil_iff]
    intro p hp
    obtain ⟨-, hget⟩ := get?_of_mem_enumFrom chunks 0 p hp
    rw [Nat.sub_zero] at hget
    have hp2 : chunks.getD p.1 [] = p.2 := by
      unfold List.getD
      rw [hget]
      rfl
    rw [vecOfEmbed]
    rw [← hp2, hall p.1]
  · intro fileContent fails htrim hall hchunks
    refine ⟨?_, rfl, rfl⟩
    have hvec : processChunksInBatches (splitTextIntoChunks fileContent) fn embed = [] := by
      rw [processChunksInBatches_eq, List.filterMap_eq_nil_iff]
      intro p _
      rw [vecOfEmbed, hall p.1 p.2]
    rw [POSTmodel, if_neg htrim]
    simp only
    rw [if_neg (fun h => hchunks (List.length_eq_zero.mp h)), hvec]
    rfl

theorem claim_C4_witness :
    (∀ v ∈ processChunksInBatches [hiText] "f.txt".toList (fun _ _ => none),
      v.metadata.chunk_index ≠ 0) ∧
    processChunksInBatches [hiText] "f.txt".toList (fun _ _ => none) = [] ∧
    POSTmodel hiText "f.txt".toList (fun _ _ => none) (fun _ => false) =
      PostOutcome.noVectors :=
  ⟨(claim_C4_theorem [hiText] "f.txt".toList (fun _ _ => none)).1 0 rfl,
   (claim_C4_theorem [hiText] "f.txt".toList (fun _ _ => none)).2.1
     (fun _ => rfl),
   ((claim_C4_theorem [hiText] "f.txt".toList (fun _ _ => none)).2.2 hiText
     (fun _ => false) (by decide) (fun _ _ => rfl) (by decide)).1⟩

/-! ## Claim C5 -/

/-- The slices `l[0:n], l[n:2n], …` — the batches the upsert loop submits,
in collection order (fuelled like the loop itself). -/
def batchesOfAux (n : Nat) : Nat → List EmbeddingVector → List (List EmbeddingVector)
  | 0, _ => []
  | _+1, [] => []
  | fuel+1, v :: vs => (v :: vs).take n :: batchesOfAux n fuel ((v :: vs).drop n)

def batchesOf (n : Nat) (l : List EmbeddingVector) : List (List EmbeddingVector) :=
  batchesOfAux n l.length l

theorem upsertAux_ok (fails : Nat → Bool) (hok : ∀ j, fails j = false) :
    ∀ fuel (l : List EmbeddingVector) (k : Nat),
      upsertBatchesAux fails fuel l k = (batchesOfAux UPSERT_BATCH_SIZE fuel l, true) := by
  intro fuel
  induction fuel with
  | zero => intro l k; rfl
  | succ fuel ih =>
    intro l k
    cases l with
    | nil => rfl
    | cons v vs =>
      simp only [upsertBatchesAux, batchesOfAux, hok k, Bool.false_eq_true,
        if_false, ih]

theorem batchesOfAux_join :
    ∀ fuel (l : List EmbeddingVector), l.length ≤ fuel →
      (batchesOfAux UPSERT_BATCH_SIZE fuel l).flatten = l := by
  intro fuel
  induction fuel with
  | zero =>
    intro l hl
    have : l = [] := List.length_eq_zero.mp (Nat.le_zero.mp hl)
    subst this
    rfl
  | succ fuel ih =>
    intro l hl
    cases l with
    | nil => rfl
    | cons v vs =>
      have hdrop : ((v :: vs).drop UPSERT_BATCH_SIZE).length ≤ fuel := by
        simp only [List.length_drop, List.length_cons, UPSERT_BATCH_SIZE] at hl ⊢
        omega
      simp only [batchesOfAux, List.flatten_cons]
      rw [ih _ hdrop]
      exact List.take_append_drop _ _

theorem batchesOfAux_length :
    ∀ fuel (l : List EmbeddingVector) (b : List EmbeddingVector),
      b ∈ batchesOfAux UPSERT_BATCH_SIZE fuel l → b.length ≤ UPSERT_BATCH_SIZE := by
  intro fuel
  induction fuel with
  | zero =>
    intro l b hb
    simp [batchesOfAux] at hb
  | succ fuel ih =>
    intro l b hb
    cases l with
    | nil => simp [batchesOfAux] at hb
    | cons v vs =>
      simp only [batchesOfAux] at hb
      rcases List.mem_cons.mp hb with rfl | htail
      · exact List.length_take_le _ _
      · exact ih _ b htail

theorem upsertAux_fail (fails : Nat → Bool) :
    ∀ fuel (l : List EmbeddingVector) (k0 c : Nat),
      l.length ≤ fuel →
      (∀ j, j < c → fails (k0 + j) = false) → fails (k0 + c) = true →
      UPSERT_BATCH_SIZE * c < l.length →
      upsertBatchesAux fails fuel l k0 =
        ((batchesOfAux UPSERT_BATCH_SIZE fuel l).take c, false) := by
  intro fuel
  induction fuel with
  | zero =>
    intro l k0 c hfuel _ _ hlen
    omega
  | succ fuel ih =>
    intro l k0 c hfuel hpre hc hlen
    cases l with
    | nil => simp at hlen
    | cons v vs =>
      cases c with
      | zero =>
        rw [Nat.add_zero] at hc
        simp only [upsertBatchesAux, batchesOfAux, hc, if_true, List.take_zero]
      | succ c =>
        have h0 : fails k0 = false := by
          have := hpre 0 (by omega)
          simpa using this
        simp only [upsertBatchesAux, batchesOfAux, h0, Bool.false_eq_true,
          if_false, List.take_succ_cons]
        rw [ih ((v :: vs).drop UPSERT_BATCH_SIZE) (k0 + 1) c
          (by simp only [List.length_drop, List.length_cons,
            UPSERT_BATCH_SIZE] at hfuel ⊢; omega)
          (fun j hj => by
            have := hpre (j + 1) (by omega)
            have hsh : k0 + 1 + j = k0 + (j + 1) := by omega
            rw [hsh]
            exact this)
          (by
            have hsh : k0 + 1 + c = k0 + (c + 1) := by omega
            rw [hsh]
            exact hc)
          (by simp only [List.length_drop, List.length_cons,
            UPSERT_BATCH_SIZE] at hlen ⊢; omega)]

/-- C5: the upsert loop submits the vectors sequentially in fixed-size
batches of `UPSERT_BATCH_SIZE = 100` preserving collection order (their
concatenation is the vector list and no batch exceeds 100); if the k-th
upsert call fails (all earlier calls having succeeded), exactly the first
k batches were submitted — none after the k-th, and none rolled back —
and the handler answers `upsertFailed` (HTTP 500). -/
theorem claim_C5_theorem :
    (∀ vectors : List EmbeddingVector,
      upsertBatches (fun _ => false) vectors 0 =
        (batchesOf UPSERT_BATCH_SIZE vectors, true) ∧
      (batchesOf UPSERT_BATCH_SIZE vectors).flatten = vectors ∧
      (∀ b ∈ batchesOf UPSERT_BATCH_SIZE vectors,
        b.length ≤ UPSERT_BATCH_SIZE)) ∧
    (∀ (vectors : List EmbeddingVector) (fails : Nat → Bool) (k : Nat),
      (∀ j, j < k → fails j = false) → fails k = true →
      UPSERT_BATCH_SIZE * k < vectors.length →
      upsertBatches fails vectors 0 =
        ((batchesOf UPSERT_BATCH_SIZE vectors).take k, false)) ∧
    (∀ (fileContent fn : List Char)
      (embed : Nat → List Char → Option (List Int)) (fails : Nat → Bool),
      (trim fileContent).length ≠ 0 →
      splitTextIntoChunks fileContent ≠ [] →
      processChunksInBatches (splitTextIntoChunks fileContent) fn embed ≠ [] →
      (upsertBatches fails
        (processChunksInBatches (splitTextIntoChunks fileContent) fn embed) 0).2 =
        false →
      POSTmodel fileContent fn embed fails = PostOutcome.upsertFailed ∧
      statusOf PostOutcome.upsertFailed = 500) := by
  refine ⟨?_, ?_, ?_⟩
  · intro vectors
    exact ⟨upsertAux_ok (fun _ => false) (fun _ => rfl) vectors.length vectors 0,
      batchesOfAux_join vectors.length vectors (Nat.le_refl _),
      fun b hb => batchesOfAux_length vectors.length vectors b hb⟩
  · intro vectors fails k hpre hk hlen
    exact upsertAux_fail fails vectors.length vectors 0 k (Nat.le_refl _)
      (fun j hj => by simpa using hpre j hj) (by simpa using hk) hlen
  · intro fileContent fn embed fails htrim hchunks hvec hfail
    refine ⟨?_, rfl⟩
    rw [POSTmodel, if_neg htrim]
    simp only
    rw [if_neg (fun h => hchunks (List.length_eq_zero.mp h)),
      if_neg (fun h => hvec (List.length_eq_zero.mp h)), if_neg (by rw [hfail]; simp)]

theorem claim_C5_witness :
    (upsertBatches (fun _ => false)
        [⟨[1], ⟨['t'], ['f'], 0, 1, 1⟩⟩] 0 =
      (batchesOf UPSERT_BATCH_SIZE [⟨[1], ⟨['t'], ['f'], 0, 1, 1⟩⟩], true)) ∧
    (upsertBatches (fun k => decide (k = 0))
        [⟨[1], ⟨['t'], ['f'], 0, 1, 1⟩⟩] 0 =
      ((batchesOf UPSERT_BATCH_SIZE [⟨[1], ⟨['t'], ['f'], 0, 1, 1⟩⟩]).take 0,
        false)) ∧
    POSTmodel hiText ['f'] (fun _ _ => some [1]) (fun _ => true) =
      PostOutcome.upsertFailed :=
  ⟨(claim_C5_theorem.1 [⟨[1], ⟨['t'], ['f'], 0, 1, 1⟩⟩]).1,
   claim_C5_theorem.2.1 [⟨[1], ⟨['t'], ['f'], 0, 1, 1⟩⟩] (fun k => decide (k = 0)) 0
     (fun j hj => absurd hj (by omega)) (by decide) (by decide),
   (claim_C5_theorem.2.2 hiText ['f'] (fun _ _ => some [1]) (fun _ => true)
     (by decide) (by decide) (by decide) (by decide)).1⟩

end Upload
